import Mathlib

/-!
Verification of the text-analysis core of the wordcounter application
(source: src/App.tsx).  The analysis engine is shallowly embedded here:
strings are lists of characters, the JavaScript number arithmetic of the
scoring and timing formulas is modelled with rational numbers, and the
regular-expression operations of the source are modelled by structurally
recursive functions with the same semantics.  The ProseMirror document is
modelled as the sequence of blocks visited by doc.descendants (for the
heatmap) and as the capability record the statistics code consumes
(childCount and nodesBetween counting).
-/

/- ------------------------- character predicates ------------------------- -/

/-- The characters matched by the JavaScript regular expression class [.!?],
the sentence terminators of the source. -/
def isTerm (c : Char) : Bool := c == '.' || c == '!' || c == '?'

/-- The character class \s of JavaScript regular expressions and of
String.prototype.trim (ASCII whitespace plus the Unicode space separators,
NEL omitted as it cannot appear in editor text). -/
def isJsWs (c : Char) : Bool :=
  c == ' ' || c == '\t' || c == '\n' || c == '\r' ||
  c.toNat == 0xb || c.toNat == 0xc || c.toNat == 0x85 || c.toNat == 0xa0 ||
  c.toNat == 0x1680 ||
  (decide (0x2000 ≤ c.toNat) && decide (c.toNat ≤ 0x200a)) ||
  c.toNat == 0x2028 || c.toNat == 0x2029 || c.toNat == 0x202f ||
  c.toNat == 0x205f || c.toNat == 0x3000 || c.toNat == 0xfeff

/-- The punctuation class [,;:—–] of analyzeSentence: comma, semicolon,
colon, em dash, en dash. -/
def isSentencePunct (c : Char) : Bool :=
  c == ',' || c == ';' || c == ':' || c == '—' || c == '–'

/-- The vowel class [aeiouy] of countSyllables. -/
def isVowelChar (c : Char) : Bool :=
  c == 'a' || c == 'e' || c == 'i' || c == 'o' || c == 'u' || c == 'y'

/-- Lower-case ASCII letter, the class [a-z] kept by the strip step of
countSyllables. -/
def isLowerAlpha (c : Char) : Bool := decide ('a' ≤ c ∧ c ≤ 'z')

/-- The class [a-z0-9] kept by the keyword normalisation step. -/
def isKeyChar (c : Char) : Bool :=
  decide ('a' ≤ c ∧ c ≤ 'z') || decide ('0' ≤ c ∧ c ≤ '9')

/-- Decimal digit. -/
def isDigitChar (c : Char) : Bool := decide ('0' ≤ c ∧ c ≤ '9')

/-- Models String.prototype.trim: drop leading and trailing whitespace. -/
def trimChars (l : List Char) : List Char :=
  ((l.dropWhile isJsWs).reverse.dropWhile isJsWs).reverse

/- --------------------------- JavaScript split --------------------------- -/

/-- Worker for jsSplit.  Mode false: accumulating the current field (held
reversed in acc); mode true: inside a separator run, the previous field
already emitted. -/
def splitGo (p : Char → Bool) : Bool → List Char → List Char → List (List Char)
  | false, [], acc => [acc.reverse]
  | false, c :: rest, acc =>
    if p c then acc.reverse :: splitGo p true rest [] else splitGo p false rest (c :: acc)
  | true, [], _ => [[]]
  | true, c :: rest, _ =>
    if p c then splitGo p true rest [] else splitGo p false rest [c]

/-- Models String.prototype.split on a regular expression matching one or more
p-characters (split(/\s+/) for p = isJsWs, split(/[.!?]+/) for p = isTerm):
maximal separator runs divide the string into fields, a separator at either
end contributing an empty field, and the empty string yielding one empty
field. -/
def jsSplit (p : Char → Bool) (l : List Char) : List (List Char) :=
  splitGo p false l []

/- ------------------------ sentence segmentation ------------------------- -/

/-- Worker for jsSentenceParts.  Mode false: inside the non-terminator body
of the current run; mode true: inside its trailing terminator tail.  The
current run is held reversed in acc. -/
def partsGo : Bool → List Char → List Char → List (List Char)
  | _, [], acc => [acc.reverse]
  | false, c :: rest, acc =>
    if isTerm c then partsGo true rest (c :: acc) else partsGo false rest (c :: acc)
  | true, c :: rest, acc =>
    if isTerm c then partsGo true rest (c :: acc)
    else acc.reverse :: partsGo false rest [c]

/-- Models text.match(/[^.!?]+[.!?]*/g) of getSentenceHeatmap: the maximal runs of
one or more non-terminator characters followed by zero or more terminator
characters, in order; null (no match) is modelled by the empty list.
Characters before the first non-terminator belong to no run. -/
def jsSentenceParts (l : List Char) : List (List Char) :=
  match l.dropWhile isTerm with
  | [] => []
  | c :: rest => partsGo false (c :: rest) []

/- --------------------------- lexical metrics ---------------------------- -/

/-- Models word.toLowerCase().replace(/[^a-z]/g, "") of countSyllables (ASCII
lower-casing, faithful on the editor text alphabet). -/
def stripWord (w : List Char) : List Char :=
  (w.map Char.toLower).filter isLowerAlpha

/-- Models the w.match(/[aeiouy]{1,2}/g) length: scanning left to right, each match
greedily takes two vowels when it can, one otherwise; non-vowels are
skipped. -/
def countVowelGroups : List Char → ℕ
  | [] => 0
  | [c] => if isVowelChar c then 1 else 0
  | c :: c2 :: rest =>
    if isVowelChar c then
      if isVowelChar c2 then 1 + countVowelGroups rest
      else 1 + countVowelGroups (c2 :: rest)
    else countVowelGroups (c2 :: rest)

/-- countSyllables of the source, over a character list. -/
def countSyllablesL (w : List Char) : ℕ :=
  let s := stripWord w
  if s.isEmpty then 0
  else if s.length ≤ 3 then 1
  else
    let base : ℤ := countVowelGroups s
    let afterE : ℤ := if s.getLast? == some 'e' then base - 1 else base
    let afterLE : ℤ := if s.reverse.take 2 == ['e', 'l'] then afterE + 1 else afterE
    (max 1 afterLE).toNat

/-- The countSyllables(word) function of the source. -/
def countSyllables (word : String) : ℕ := countSyllablesL word.data

/- ------------------------------ formatTime ------------------------------ -/

/-- Math.round: round half toward positive infinity. -/
def jsRound (q : ℚ) : ℤ := ⌊q + 1 / 2⌋

/-- Reading speed constant of the source. -/
def READING_WPM : ℕ := 238

/-- Speaking speed constant of the source. -/
def SPEAKING_WPM : ℕ := 158

/-- The formatTime(words, wpm) helper of the source. -/
def formatTime (words wpm : ℕ) : String :=
  if words = 0 then "0 min"
  else
    let seconds := (jsRound ((words : ℚ) / (wpm : ℚ) * 60)).toNat
    let m := seconds / 60
    let s := seconds % 60
    if m = 0 then toString s ++ " sec"
    else if s = 0 then toString m ++ " min"
    else toString m ++ " min " ++ toString s ++ " sec"

/- ------------------------------- ordinal -------------------------------- -/

/-- The suffix table of ordinal. -/
def suffixes : List String := ["th", "st", "nd", "rd"]

/-- JavaScript array indexing with a possibly negative (signed remainder)
index: a negative index reads no element. -/
def jsIdx (l : List String) (i : ℤ) : Option String :=
  if 0 ≤ i then l.get? i.toNat else none

/-- Models suffixes[(v - 20) % 10] || suffixes[v] || suffixes[0] of the source, for
v = n % 100; JavaScript % is the signed remainder (Int.tmod) and the
fallback chain takes the first defined (and non-empty) entry. -/
def ordinalSuffix (v : ℕ) : String :=
  ((jsIdx suffixes (((v : ℤ) - 20).tmod 10)).orElse
    (fun _ => jsIdx suffixes (v : ℤ))).getD "th"

/-- The ordinal(n) helper of the source. -/
def ordinal (n : ℕ) : String := toString n ++ ordinalSuffix (n % 100)

/- --------------------------- sentence scoring --------------------------- -/

/-- Severity tier of a flagged sentence. -/
inductive Level where
  | warn
  | danger
deriving DecidableEq

/-- The rational score computed by analyzeSentence:
wordCount * 0.5 + avgSyllables * 10 + punctuation * 2, where the words are
sentence.trim().split(/\s+/), avgSyllables = syllables / max(wordCount, 1)
and punctuation counts the characters of [,;:—–] in the untrimmed
argument. -/
def sentenceScore (sentence : List Char) : ℚ :=
  let words := jsSplit isJsWs (trimChars sentence)
  let wordCount := words.length
  let syllables := (words.map countSyllablesL).sum
  let avgSyllables : ℚ := (syllables : ℚ) / ((max wordCount 1 : ℕ) : ℚ)
  let punctuation := sentence.countP isSentencePunct
  (wordCount : ℚ) * (1 / 2) + avgSyllables * 10 + (punctuation : ℚ) * 2

/-- The analyzeSentence classifier of the source: score ≥ 35 is danger, score ≥ 25 is warn,
anything lower is null. -/
def analyzeSentence (sentence : List Char) : Option Level :=
  let score := sentenceScore sentence
  if 35 ≤ score then some .danger
  else if 25 ≤ score then some .warn
  else none

/- ------------------------------- heatmap -------------------------------- -/

/-- A produced span; hFrom and hTo model the from and to fields of the
source (half-open document offsets). -/
structure SentenceHeat where
  hFrom : ℕ
  hTo : ℕ
  level : Level
deriving DecidableEq

/-- The per-part loop of getSentenceHeatmap: trim the part; skip it when the
trim is empty or the sentence is not flagged; otherwise emit the span
[pos + 1 + offset, pos + 1 + offset + trimmed.length); in every case advance
the offset by the untrimmed part length. -/
def heatLoop (pos : ℕ) : List (List Char) → ℕ → List SentenceHeat
  | [], _ => []
  | part :: rest, offset =>
    let trimmed := trimChars part
    if trimmed.isEmpty then heatLoop pos rest (offset + part.length)
    else
      match analyzeSentence trimmed with
      | none => heatLoop pos rest (offset + part.length)
      | some level =>
        { hFrom := pos + 1 + offset, hTo := pos + 1 + offset + trimmed.length,
          level := level } :: heatLoop pos rest (offset + part.length)

/-- The spans getSentenceHeatmap produces from one text block: segment the
block text into runs and fold the loop over them starting at offset 0. -/
def blockHeat (pos : ℕ) (text : List Char) : List SentenceHeat :=
  heatLoop pos (jsSentenceParts text) 0

/-- One node visited by doc.descendants: its position, its isTextblock flag
and its flattened text content. -/
structure PMBlock where
  pos : ℕ
  isTextblock : Bool
  text : List Char

/-- The getSentenceHeatmap builder of the source over the visited node sequence: every
text block with non-empty text contributes its blockHeat spans in order. -/
def getSentenceHeatmap (doc : List PMBlock) : List SentenceHeat :=
  doc.flatMap fun b =>
    if b.isTextblock && !b.text.isEmpty then blockHeat b.pos b.text else []

/- ------------------------------ statistics ------------------------------ -/

/-- The STOP_WORDS set of the source. -/
def STOP_WORDS : List String :=
  ["the", "and", "a", "to", "of", "in", "is", "it", "that", "on", "for",
   "with", "as", "at", "this", "by", "an", "be", "are", "from", "or", "was",
   "were", "but", "not"]

/-- Models word.toLowerCase().replace(/[^a-z0-9]/g, "") of the keyword tally. -/
def normalizeKey (w : List Char) : String :=
  ⟨(w.map Char.toLower).filter isKeyChar⟩

/-- Models freq[key] = (freq[key] ?? 0) + 1 on an association list in property
insertion order: bump the count of an existing key in place, or append a
new key with count 1. -/
def bumpKey : List (String × ℕ) → String → List (String × ℕ)
  | [], k => [(k, 1)]
  | (k', c) :: rest, k =>
    if k' = k then (k', c + 1) :: rest else (k', c) :: bumpKey rest k

/-- The frequency tally of the stats memo: for each word take its
normalisation, skip it when empty or a stop word, otherwise bump its
count.  The resulting association list is in first-insertion order. -/
def buildFreq (ws : List (List Char)) : List (String × ℕ) :=
  ws.foldl
    (fun m w =>
      let key := normalizeKey w
      if key = "" || STOP_WORDS.contains key then m else bumpKey m key)
    []

/-- Numeric value of a digit string. -/
def digitsVal (l : List Char) : ℕ :=
  l.foldl (fun a c => a * 10 + (c.toNat - 48)) 0

/-- Whether a JavaScript object property key is an array index (a canonical
numeric string below 2^32 - 1): such keys are enumerated first, in
ascending numeric order, by Object.entries. -/
def isArrayIdx (s : String) : Bool :=
  !s.data.isEmpty && s.data.all isDigitChar &&
    (s == "0" || !(s.data.head? == some '0')) &&
    decide (digitsVal s.data ≤ 4294967294)

/-- Insert p into a list, scanning past every element satisfying f. -/
def insertP {α : Type} (f : α → Bool) (p : α) : List α → List α
  | [] => [p]
  | q :: r => if f q then q :: insertP f p r else p :: q :: r

/-- Sort array-index keys into ascending numeric order. -/
def sortNumAsc (l : List (String × ℕ)) : List (String × ℕ) :=
  l.foldl (fun acc p => insertP (fun q => decide (digitsVal q.1.data ≤ digitsVal p.1.data)) p acc) []

/-- Models Object.entries on the frequency map: array-index keys first in ascending
numeric order, then the remaining keys in insertion order. -/
def jsEntries (m : List (String × ℕ)) : List (String × ℕ) :=
  sortNumAsc (m.filter fun p => isArrayIdx p.1) ++
    m.filter fun p => !isArrayIdx p.1

/-- Models entries.sort((a, b) => b[1] - a[1]) of the source: Array.prototype.sort
is stable, so this is a stable sort by descending count, realised here as a
stable insertion sort. -/
def sortByCountDesc (l : List (String × ℕ)) : List (String × ℕ) :=
  l.foldl (fun acc p => insertP (fun q => decide (p.2 ≤ q.2)) p acc) []

/-- The word/count pairs underlying the keyword list: the frequency entries
in Object.entries order, stably sorted by descending count, first ten
kept. -/
def keywordPairs (ws : List (List Char)) : List (String × ℕ) :=
  (sortByCountDesc (jsEntries (buildFreq ws))).take 10

/-- Models Number.prototype.toFixed(1) for the non-negative rationals produced by
the density computation: round to tenths, half away from zero, and render
with one decimal digit. -/
def toFixed1 (q : ℚ) : String :=
  let n := (⌊q * 10 + 1 / 2⌋).toNat
  toString (n / 10) ++ "." ++ toString (n % 10)

/-- A rendered keyword entry of the statistics record. -/
structure KeywordEntry where
  word : String
  density : String
deriving DecidableEq

/-- The document capabilities the statistics code consumes from the editor
state: doc.childCount, and the number of nodes with isBlock that
doc.nodesBetween(from, to) visits. -/
structure StatsDoc where
  childCount : ℕ
  blocksBetween : ℕ → ℕ → ℕ

/-- The statistics record of the stats memo. -/
structure Stats where
  words : ℕ
  characters : ℕ
  charactersWithFormatting : ℕ
  sentences : ℕ
  paragraphs : ℕ
  readingTime : String
  speakingTime : String
  readingGrade : String
  keywords : List KeywordEntry

/-- The word list of the stats memo: trimmed ? trimmed.split(/\s+/) : []. -/
def statsWords (activeText : List Char) : List (List Char) :=
  let trimmed := trimChars activeText
  if trimmed.isEmpty then [] else jsSplit isJsWs trimmed

/-- The sentence list of the stats memo:
trimmed ? trimmed.split(/[.!?]+/).filter(Boolean) : []. -/
def statsSentences (activeText : List Char) : List (List Char) :=
  let trimmed := trimChars activeText
  if trimmed.isEmpty then []
  else (jsSplit isTerm trimmed).filter fun s => !s.isEmpty

/-- The stats memo of the source as a function of the active text (the
selection text when non-empty, else the document text), the document
capabilities and the selection offsets. -/
def computeStatistics (activeText : List Char) (doc : StatsDoc)
    (selFrom selTo : ℕ) : Stats :=
  let trimmed := trimChars activeText
  let words := statsWords activeText
  let sentences := statsSentences activeText
  let syllables := (words.map countSyllablesL).sum
  let grade : ℚ :=
    if words.length ≠ 0 ∧ sentences.length ≠ 0 then
      (39 / 100) * ((words.length : ℚ) / (sentences.length : ℚ)) +
        (59 / 5) * ((syllables : ℚ) / (words.length : ℚ)) - 1559 / 100
    else 0
  let paragraphs :=
    if selFrom = selTo then doc.childCount else doc.blocksBetween selFrom selTo
  { words := words.length
    characters := (trimmed.filter fun c => !isJsWs c).length
    charactersWithFormatting := trimmed.length
    sentences := sentences.length
    paragraphs := paragraphs
    readingTime := formatTime words.length READING_WPM
    speakingTime := formatTime words.length SPEAKING_WPM
    readingGrade :=
      if 0 < grade then ordinal (max 1 (jsRound grade)).toNat else "—"
    keywords :=
      (keywordPairs words).map fun p =>
        { word := p.1,
          density := toFixed1 ((p.2 : ℚ) / (words.length : ℚ) * 100) } }

/-- The ASCII letters, the alphabet of "alphabetic input" in the syllable
claims. -/
def asciiLetters : List Char :=
  "abcdefghijklmnopqrstuvwxyzABCDEFGHIJKLMNOPQRSTUVWXYZ".data

/- ------------------------- basic list lemmas ---------------------------- -/

theorem length_dropWhile_le {α : Type} (p : α → Bool) (l : List α) :
    (l.dropWhile p).length ≤ l.length := by
  induction l with
  | nil => simp
  | cons c r ih =>
    by_cases h : p c <;> simp [List.dropWhile_cons, h] <;> omega

theorem trimChars_length_le (l : List Char) :
    (trimChars l).length ≤ l.length := by
  unfold trimChars
  calc ((l.dropWhile isJsWs).reverse.dropWhile isJsWs).reverse.length
      = ((l.dropWhile isJsWs).reverse.dropWhile isJsWs).length := by
        rw [List.length_reverse]
    _ ≤ (l.dropWhile isJsWs).reverse.length := length_dropWhile_le _ _
    _ = (l.dropWhile isJsWs).length := by rw [List.length_reverse]
    _ ≤ l.length := length_dropWhile_le _ _

theorem sum_take_le (l : List ℕ) (n : ℕ) : (l.take n).sum ≤ l.sum := by
  induction l generalizing n with
  | nil => simp
  | cons c r ih =>
    cases n with
    | zero => simp
    | succ n => simp only [List.take_succ_cons, List.sum_cons]; exact Nat.add_le_add_left (ih n) c

/- ----------------------- segmenter run lemmas --------------------------- -/

theorem partsGo_flatten (l : List Char) :
    ∀ (mode : Bool) (acc : List Char),
      (partsGo mode l acc).flatten = acc.reverse ++ l := by
  induction l with
  | nil => intro mode acc; cases mode <;> simp [partsGo]
  | cons c rest ih =>
    intro mode acc
    cases mode with
    | false =>
      by_cases h : isTerm c <;> simp [partsGo, h, ih]
    | true =>
      by_cases h : isTerm c <;> simp [partsGo, h, ih]

theorem jsSentenceParts_flatten (l : List Char) :
    (jsSentenceParts l).flatten = l.dropWhile isTerm := by
  unfold jsSentenceParts
  cases h : l.dropWhile isTerm with
  | nil => simp
  | cons c rest => simp [partsGo_flatten]

theorem jsSentenceParts_cover (l : List Char) :
    l.takeWhile isTerm ++ (jsSentenceParts l).flatten = l := by
  rw [jsSentenceParts_flatten, List.takeWhile_append_dropWhile]

theorem jsSentenceParts_sum_length (l : List Char) :
    ((jsSentenceParts l).map List.length).sum + (l.takeWhile isTerm).length
      = l.length := by
  have h := congrArg List.length (jsSentenceParts_cover l)
  rw [List.length_append, List.length_flatten] at h
  omega

theorem flatten_drop_take {α : Type} (ps : List (List α)) :
    ∀ (k : ℕ) (h : k < ps.length),
      (ps.flatten.drop (((ps.take k).map List.length).sum)).take
          (ps.get ⟨k, h⟩).length = ps.get ⟨k, h⟩ := by
  induction ps with
  | nil => intro k h; simp at h
  | cons p rest ih =>
    intro k h
    cases k with
    | zero => simp [List.take_left]
    | succ k =>
      have hk : k < rest.length := by simpa using h
      have := ih k hk
      simp only [List.take_succ_cons, List.map_cons, List.sum_cons,
        List.flatten_cons, List.get_cons_succ]
      rw [← List.drop_drop, List.drop_left]
      exact this

theorem drop_shift_flatten (l : List Char) (n : ℕ) :
    l.drop ((l.takeWhile isTerm).length + n)
      = (jsSentenceParts l).flatten.drop n := by
  calc l.drop ((l.takeWhile isTerm).length + n)
      = (l.takeWhile isTerm ++ (jsSentenceParts l).flatten).drop
          ((l.takeWhile isTerm).length + n) := by rw [jsSentenceParts_cover]
    _ = (jsSentenceParts l).flatten.drop n := by
        rw [← List.drop_drop, List.drop_left]

/-- C4 (amended): the runs of the sentence segmenter cover the input after
its leading run of sentence terminators: input = leading terminators ++
concatenation of the runs, the run lengths sum to the input length minus
the leading-terminator count, and the k-th run occurs in the input at the
tracked offset (the sum of the previous run lengths) shifted right by the
leading-terminator count. -/
theorem segmenter_runs_cover (l : List Char) :
    l.takeWhile isTerm ++ (jsSentenceParts l).flatten = l ∧
    ((jsSentenceParts l).map List.length).sum + (l.takeWhile isTerm).length
      = l.length ∧
    ∀ (k : ℕ) (h : k < (jsSentenceParts l).length),
      (l.drop ((l.takeWhile isTerm).length +
          (((jsSentenceParts l).take k).map List.length).sum)).take
          ((jsSentenceParts l).get ⟨k, h⟩).length
        = (jsSentenceParts l).get ⟨k, h⟩ := by
  refine ⟨jsSentenceParts_cover l, jsSentenceParts_sum_length l, ?_⟩
  intro k h
  rw [drop_shift_flatten]
  exact flatten_drop_take (jsSentenceParts l) k h

/-- C4 (counterexample): on the input "!a" the single run "a" does not cover
the leading terminator, the run lengths sum to 1 while the input has length
2, and the run does not start at the tracked offset 0. -/
theorem segmenter_runs_cover_cex :
    jsSentenceParts ("!a".data) = ["a".data] ∧
    ((jsSentenceParts ("!a".data)).map List.length).sum = 1 ∧
    ("!a".data).length = 2 ∧
    (("!a".data).drop 0).take 1 ≠ "a".data := by
  decide

/-- C4 (witness): the amended coverage theorem applied to the concrete input
"Hi. Go." at run index 0. -/
theorem segmenter_runs_cover_witness :
    (("Hi. Go.".data).drop ((("Hi. Go.".data).takeWhile isTerm).length +
        (((jsSentenceParts ("Hi. Go.".data)).take 0).map List.length).sum)).take
        ((jsSentenceParts ("Hi. Go.".data)).get ⟨0, by decide⟩).length
      = (jsSentenceParts ("Hi. Go.".data)).get ⟨0, by decide⟩ :=
  (segmenter_runs_cover ("Hi. Go.".data)).2.2 0 (by decide)

/- --------------------------- heatmap lemmas ----------------------------- -/

theorem heatLoop_mem_bounds (pos : ℕ) (parts : List (List Char)) :
    ∀ (offset : ℕ) (s : SentenceHeat), s ∈ heatLoop pos parts offset →
      pos + 1 + offset ≤ s.hFrom ∧ s.hFrom < s.hTo ∧
        s.hTo ≤ pos + 1 + offset + (parts.map List.length).sum := by
  induction parts with
  | nil => intro offset s hs; simp [heatLoop] at hs
  | cons part rest ih =>
    intro offset s hs
    simp only [heatLoop] at hs
    by_cases h1 : (trimChars part).isEmpty
    · rw [if_pos h1] at hs
      obtain ⟨a, b, c⟩ := ih (offset + part.length) s hs
      refine ⟨by omega, b, ?_⟩
      simp only [List.map_cons, List.sum_cons]
      omega
    · rw [if_neg h1] at hs
      have hlen : (trimChars part).length ≤ part.length := trimChars_length_le part
      have hpos : 0 < (trimChars part).length := by
        cases ht : trimChars part with
        | nil => rw [ht] at h1; simp at h1
        | cons x xs => simp [ht]
      cases h2 : analyzeSentence (trimChars part) with
      | none =>
        rw [h2] at hs
        obtain ⟨a, b, c⟩ := ih (offset + part.length) s hs
        refine ⟨by omega, b, ?_⟩
        simp only [List.map_cons, List.sum_cons]
        omega
      | some lvl =>
        rw [h2] at hs
        rcases List.mem_cons.mp hs with he | ht
        · subst he
          refine ⟨le_refl _, by simp; omega, ?_⟩
          simp only [List.map_cons, List.sum_cons]
          omega
        · obtain ⟨a, b, c⟩ := ih (offset + part.length) s ht
          refine ⟨by omega, b, ?_⟩
          simp only [List.map_cons, List.sum_cons]
          omega

theorem heatLoop_pairwise (pos : ℕ) (parts : List (List Char)) :
    ∀ (offset : ℕ),
      List.Pairwise (fun a b => a.hTo ≤ b.hFrom) (heatLoop pos parts offset) := by
  induction parts with
  | nil => intro offset; simp [heatLoop]
  | cons part rest ih =>
    intro offset
    simp only [heatLoop]
    by_cases h1 : (trimChars part).isEmpty
    · rw [if_pos h1]; exact ih (offset + part.length)
    · rw [if_neg h1]
      have hlen : (trimChars part).length ≤ part.length := trimChars_length_le part
      cases h2 : analyzeSentence (trimChars part) with
      | none => exact ih (offset + part.length)
      | some lvl =>
        refine List.Pairwise.cons ?_ (ih (offset + part.length))
        intro b hb
        have := (heatLoop_mem_bounds pos rest (offset + part.length) b hb).1
        simp only []
        omega

theorem blockHeat_mem_bounds (pos : ℕ) (text : List Char) :
    ∀ s ∈ blockHeat pos text,
      pos + 1 ≤ s.hFrom ∧ s.hFrom < s.hTo ∧ s.hTo ≤ pos + 1 + text.length := by
  intro s hs
  have hsum : ((jsSentenceParts text).map List.length).sum ≤ text.length := by
    have := jsSentenceParts_sum_length text
    omega
  obtain ⟨a, b, c⟩ := heatLoop_mem_bounds pos (jsSentenceParts text) 0 s hs
  exact ⟨by omega, b, by omega⟩

theorem blockHeat_pairwise (pos : ℕ) (text : List Char) :
    List.Pairwise (fun a b => a.hTo ≤ b.hFrom) (blockHeat pos text) :=
  heatLoop_pairwise pos (jsSentenceParts text) 0

/-- C10: every span getSentenceHeatmap produces from a text block at
position pos with text t lies inside the content range of that block:
pos + 1 ≤ from and to ≤ pos + 1 + t.length. -/
theorem blockHeat_span_in_block (pos : ℕ) (text : List Char) :
    ∀ s ∈ blockHeat pos text,
      pos + 1 ≤ s.hFrom ∧ s.hTo ≤ pos + 1 + text.length := by
  intro s hs
  obtain ⟨a, _, c⟩ := blockHeat_mem_bounds pos text s hs
  exact ⟨a, c⟩

theorem heatmap_block_case (b : PMBlock) (s : SentenceHeat)
    (hs : s ∈ (if b.isTextblock && !b.text.isEmpty
        then blockHeat b.pos b.text else [])) :
    b.pos + 1 ≤ s.hFrom ∧ s.hFrom < s.hTo ∧
      s.hTo ≤ b.pos + 1 + b.text.length := by
  by_cases hb : b.isTextblock && !b.text.isEmpty
  · rw [if_pos hb] at hs
    obtain ⟨a, b', c⟩ := blockHeat_mem_bounds b.pos b.text s hs
    exact ⟨a, b', c⟩
  · rw [if_neg hb] at hs; simp at hs

theorem heatmap_pairwise_sep (doc : List PMBlock)
    (hdoc : List.Pairwise (fun b b' => b.pos + 1 + b.text.length ≤ b'.pos + 1) doc) :
    List.Pairwise (fun a b => a.hTo ≤ b.hFrom) (getSentenceHeatmap doc) := by
  unfold getSentenceHeatmap
  induction doc with
  | nil => simp
  | cons b rest ih =>
    rw [List.flatMap_cons, List.pairwise_append]
    refine ⟨?_, ih (List.Pairwise.sublist (List.sublist_cons_self b rest) hdoc), ?_⟩
    · by_cases hb : b.isTextblock && !b.text.isEmpty
      · rw [if_pos hb]; exact blockHeat_pairwise b.pos b.text
      · rw [if_neg hb]; simp
    · intro x hx y hy
      obtain ⟨b', hb', hyb⟩ := List.mem_flatMap.mp hy
      have h1 := (heatmap_block_case b x hx).2.2
      have h2 := (heatmap_block_case b' y hyb).1
      have h3 : b.pos + 1 + b.text.length ≤ b'.pos + 1 :=
        (List.pairwise_cons.mp hdoc).1 b' hb'
      omega

/-- C1: over a document whose text blocks appear in document order with
disjoint content ranges (as doc.descendants yields them), every produced
span has from < to, the spans are pairwise non-overlapping (in particular
no two spans produced from the same text block overlap), and the sequence
is sorted by ascending from. -/
theorem heatmap_spans_wellformed (doc : List PMBlock)
    (hdoc : List.Pairwise (fun b b' => b.pos + 1 + b.text.length ≤ b'.pos + 1) doc) :
    (∀ s ∈ getSentenceHeatmap doc, s.hFrom < s.hTo) ∧
    List.Pairwise (fun a b => a.hTo ≤ b.hFrom) (getSentenceHeatmap doc) ∧
    List.Pairwise (fun a b => a.hFrom ≤ b.hFrom) (getSentenceHeatmap doc) := by
  have hlt : ∀ s ∈ getSentenceHeatmap doc, s.hFrom < s.hTo := by
    intro s hs
    obtain ⟨b, _, hsb⟩ := List.mem_flatMap.mp hs
    exact (heatmap_block_case b s hsb).2.1
  have hsep := heatmap_pairwise_sep doc hdoc
  refine ⟨hlt, hsep, ?_⟩
  refine List.Pairwise.imp_of_mem ?_ hsep
  intro a b ha _ hab
  have := hlt a ha
  omega

/- ------------------------------ C7: ordinal ----------------------------- -/

theorem ordinal_suffix_cases : ∀ v, v < 100 → ordinalSuffix v =
    (if 10 ≤ v ∧ v ≤ 19 then "th"
     else if v % 10 = 1 then "st"
     else if v % 10 = 2 then "nd"
     else if v % 10 = 3 then "rd"
     else "th") := by
  decide

/-- C7: ordinal renders every natural number with the English ordinal
suffix by the standard rule (teens take th, otherwise a last digit of
1, 2 or 3 takes st, nd or rd, everything else th), and in particular
ordinal 1 = "1st", ordinal 11 = "11th", ordinal 21 = "21st",
ordinal 112 = "112th". -/
theorem ordinal_spec :
    (∀ n : ℕ, ordinal n = toString n ++
      (if 10 ≤ n % 100 ∧ n % 100 ≤ 19 then "th"
       else if n % 10 = 1 then "st"
       else if n % 10 = 2 then "nd"
       else if n % 10 = 3 then "rd"
       else "th")) ∧
    ordinal 1 = "1st" ∧ ordinal 11 = "11th" ∧ ordinal 21 = "21st" ∧
    ordinal 112 = "112th" := by
  refine ⟨?_, by decide, by decide, by decide, by decide⟩
  intro n
  have h100 : n % 100 < 100 := Nat.mod_lt _ (by norm_num)
  have h10 : n % 10 = n % 100 % 10 := (Nat.mod_mod_of_dvd n (by norm_num)).symm
  unfold ordinal
  rw [ordinal_suffix_cases (n % 100) h100, h10]

/- -------------------------- C6: countSyllables -------------------------- -/

theorem asciiLetters_toLower :
    ∀ c ∈ asciiLetters, isLowerAlpha (Char.toLower c) = true := by
  decide

/-- C6: countSyllables lower-cases and strips its argument to [a-z],
returns 0 when the stripped result is empty, 1 when it is non-empty of
length at most 3, and otherwise counts vowel runs of one or two vowels,
subtracts 1 for a trailing e, adds 1 back for a trailing le and clamps at
1; consequently countSyllables "the" = 1, countSyllables "" = 0,
countSyllables "beautiful" ≥ 2, and the result is at least 1 on every
non-empty all-ASCII-letter input. -/
theorem countSyllables_spec :
    (∀ w : String, stripWord w.data = [] → countSyllables w = 0) ∧
    (∀ w : String, stripWord w.data ≠ [] → (stripWord w.data).length ≤ 3 →
      countSyllables w = 1) ∧
    (∀ w : String, 3 < (stripWord w.data).length →
      countSyllables w =
        (max 1 ((countVowelGroups (stripWord w.data) : ℤ) -
          (if (stripWord w.data).getLast? == some 'e' then 1 else 0) +
          (if (stripWord w.data).reverse.take 2 == ['e', 'l'] then 1
           else 0))).toNat) ∧
    countSyllables "the" = 1 ∧ countSyllables "" = 0 ∧
    2 ≤ countSyllables "beautiful" ∧
    (∀ w : String, w.data ≠ [] → (∀ c ∈ w.data, c ∈ asciiLetters) →
      1 ≤ countSyllables w) := by
  have hempty : ∀ w : String, stripWord w.data = [] → countSyllables w = 0 := by
    intro w h
    simp only [countSyllables, countSyllablesL, h]
    simp
  have hshort : ∀ w : String, stripWord w.data ≠ [] →
      (stripWord w.data).length ≤ 3 → countSyllables w = 1 := by
    intro w h hlen
    simp only [countSyllables, countSyllablesL]
    rw [if_neg (by simp [List.isEmpty_iff, h]), if_pos hlen]
  have hlong : ∀ w : String, 3 < (stripWord w.data).length →
      countSyllables w =
        (max 1 ((countVowelGroups (stripWord w.data) : ℤ) -
          (if (stripWord w.data).getLast? == some 'e' then 1 else 0) +
          (if (stripWord w.data).reverse.take 2 == ['e', 'l'] then 1
           else 0))).toNat := by
    intro w hlen
    have hne : stripWord w.data ≠ [] := by
      intro h; rw [h] at hlen; simp at hlen
    simp only [countSyllables, countSyllablesL]
    rw [if_neg (by simp [List.isEmpty_iff, hne]), if_neg (by omega)]
    congr 1
    by_cases h1 : (stripWord w.data).getLast? == some 'e' <;>
      by_cases h2 : (stripWord w.data).reverse.take 2 == ['e', 'l'] <;>
        simp [h1, h2] <;> ring
  refine ⟨hempty, hshort, hlong, by decide, by decide, by decide, ?_⟩
  intro w hne hall
  have hmap : ∀ x ∈ w.data.map Char.toLower, isLowerAlpha x = true := by
    intro x hx
    obtain ⟨c, hc, rfl⟩ := List.mem_map.mp hx
    exact asciiLetters_toLower c (hall c hc)
  have hstrip : stripWord w.data = w.data.map Char.toLower :=
    List.filter_eq_self.mpr hmap
  have hsne : stripWord w.data ≠ [] := by
    rw [hstrip]
    simp [hne]
  by_cases hlen : (stripWord w.data).length ≤ 3
  · rw [hshort w hsne hlen]
  · rw [hlong w (by omega)]
    have h1 : (1 : ℤ) ≤ max 1 ((countVowelGroups (stripWord w.data) : ℤ) -
        (if (stripWord w.data).getLast? == some 'e' then 1 else 0) +
        (if (stripWord w.data).reverse.take 2 == ['e', 'l'] then 1 else 0)) :=
      le_max_left _ _
    generalize hz : max 1 ((countVowelGroups (stripWord w.data) : ℤ) -
        (if (stripWord w.data).getLast? == some 'e' then 1 else 0) +
        (if (stripWord w.data).reverse.take 2 == ['e', 'l'] then 1 else 0)) = z
    rw [hz] at h1
    omega

/-- C6 (witness): the general clauses of the syllable theorem applied to the
concrete input "abc". -/
theorem countSyllables_spec_witness :
    ("abc".data ≠ [] ∧ (∀ c ∈ "abc".data, c ∈ asciiLetters)) ∧
      1 ≤ countSyllables "abc" :=
  ⟨⟨by decide, by decide⟩,
    countSyllables_spec.2.2.2.2.2.2 "abc" (by decide) (by decide)⟩

/- -------------------- rational-to-natural evaluation -------------------- -/

theorem jsRound_natDiv (a b : ℕ) (hb : b ≠ 0) :
    jsRound ((a : ℚ) / (b : ℚ)) = ((2 * a + b) / (2 * b) : ℕ) := by
  unfold jsRound
  have hb' : (b : ℚ) ≠ 0 := Nat.cast_ne_zero.mpr hb
  have h1 : (a : ℚ) / (b : ℚ) + 1 / 2
      = ((2 * a + b : ℕ) : ℚ) / ((2 * b : ℕ) : ℚ) := by
    push_cast
    field_simp
    ring
  rw [h1, Rat.floor_natCast_div_natCast]
  rfl

theorem formatTime_seconds (w wpm : ℕ) (h : wpm ≠ 0) :
    (jsRound ((w : ℚ) / (wpm : ℚ) * 60)).toNat = (120 * w + wpm) / (2 * wpm) := by
  have h1 : (w : ℚ) / (wpm : ℚ) * 60 = ((60 * w : ℕ) : ℚ) / ((wpm : ℕ) : ℚ) := by
    push_cast
    ring
  rw [h1, jsRound_natDiv (60 * w) wpm h, Int.toNat_natCast]
  congr 1
  ring

theorem formatTime_eval (w wpm : ℕ) (h : wpm ≠ 0) :
    formatTime w wpm =
      if w = 0 then "0 min"
      else
        let seconds := (120 * w + wpm) / (2 * wpm)
        let m := seconds / 60
        let s := seconds % 60
        if m = 0 then toString s ++ " sec"
        else if s = 0 then toString m ++ " min"
        else toString m ++ " min " ++ toString s ++ " sec" := by
  unfold formatTime
  rw [formatTime_seconds w wpm h]

/- ----------------------------- C8: formatTime --------------------------- -/

/-- C8: formatTime returns "0 min" for zero words; otherwise, with
totalSeconds the rounding of wordCount / wpm * 60, it renders seconds alone
when the minute part is zero, minutes alone when the second part is zero,
and both otherwise; in particular formatTime 0 238 = "0 min",
formatTime 238 238 = "1 min" and formatTime 119 238 = "30 sec". -/
theorem formatTime_spec :
    (∀ wpm : ℕ, formatTime 0 wpm = "0 min") ∧
    (∀ w wpm : ℕ, 0 < wpm → w ≠ 0 →
      formatTime w wpm =
        (let totalSeconds := (⌊(w : ℚ) / (wpm : ℚ) * 60 + 1 / 2⌋).toNat
         let minutes := totalSeconds / 60
         let seconds := totalSeconds % 60
         if minutes = 0 then toString seconds ++ " sec"
         else if seconds = 0 then toString minutes ++ " min"
         else toString minutes ++ " min " ++ toString seconds ++ " sec")) ∧
    formatTime 0 238 = "0 min" ∧ formatTime 238 238 = "1 min" ∧
    formatTime 119 238 = "30 sec" := by
  refine ⟨?_, ?_, by simp [formatTime], ?_, ?_⟩
  · intro wpm; simp [formatTime]
  · intro w wpm _ hw
    unfold formatTime jsRound
    rw [if_neg hw]
  · rw [formatTime_eval 238 238 (by decide)]; decide
  · rw [formatTime_eval 119 238 (by decide)]; decide

/-- C8 (witness): the general rendering clause of the formatTime theorem
applied to the concrete input (238, 238). -/
theorem formatTime_spec_witness :
    (0 < 238 ∧ (238 : ℕ) ≠ 0) ∧
      formatTime 238 238 =
        (let totalSeconds := (⌊(238 : ℚ) / ((238 : ℕ) : ℚ) * 60 + 1 / 2⌋).toNat
         let minutes := totalSeconds / 60
         let seconds := totalSeconds % 60
         if minutes = 0 then toString seconds ++ " sec"
         else if seconds = 0 then toString minutes ++ " min"
         else toString minutes ++ " min " ++ toString seconds ++ " sec") :=
  ⟨⟨by decide, by decide⟩, formatTime_spec.2.1 238 238 (by decide) (by decide)⟩

/- ------------------- analyzeSentence natural evaluation ----------------- -/

theorem analyzeSentence_eval (s : List Char) :
    analyzeSentence s =
      (let ws := jsSplit isJsWs (trimChars s)
       let wc := ws.length
       let syll := (ws.map countSyllablesL).sum
       let m := max wc 1
       let punct := s.countP isSentencePunct
       if 70 * m ≤ wc * m + 20 * syll + 4 * (punct * m) then some Level.danger
       else if 50 * m ≤ wc * m + 20 * syll + 4 * (punct * m) then some Level.warn
       else none) := by
  unfold analyzeSentence sentenceScore
  set ws := jsSplit isJsWs (trimChars s) with hws
  set wc := ws.length with hwc
  set syll := (ws.map countSyllablesL).sum with hsyll
  set punct := s.countP isSentencePunct with hpunct
  set m := max wc 1 with hm
  have hm0 : 0 < m := by omega
  have hmq : (0 : ℚ) < (m : ℚ) := by exact_mod_cast hm0
  have h2m : (0 : ℚ) < 2 * (m : ℚ) := by linarith
  have key : ∀ t : ℕ,
      ((t : ℚ) ≤ (wc : ℚ) * (1 / 2) + (syll : ℚ) / (m : ℚ) * 10 + (punct : ℚ) * 2
        ↔ 2 * t * m ≤ wc * m + 20 * syll + 4 * (punct * m)) := by
    intro t
    rw [← mul_le_mul_right h2m]
    have expand : ((wc : ℚ) * (1 / 2) + (syll : ℚ) / (m : ℚ) * 10 + (punct : ℚ) * 2)
        * (2 * (m : ℚ)) = ((wc * m + 20 * syll + 4 * (punct * m) : ℕ) : ℚ) := by
      push_cast
      field_simp
      ring
    rw [expand, show (t : ℚ) * (2 * (m : ℚ)) = ((2 * t * m : ℕ) : ℚ) by push_cast; ring]
    exact Nat.cast_le
  have k35 := key 35
  have k25 := key 25
  norm_num at k35 k25
  simp only [k35, k25]

/- -------------------- trimmed strings and split fields ------------------ -/

theorem dropWhile_length_eq (p : Char → Bool) :
    ∀ l : List Char, (l.dropWhile p).length = l.length → l.dropWhile p = l := by
  intro l h
  induction l with
  | nil => simp
  | cons c rest ih =>
    by_cases hc : p c
    · rw [List.dropWhile_cons, if_pos hc] at h
      have := length_dropWhile_le p rest
      simp at h
      omega
    · rw [List.dropWhile_cons, if_neg hc]

theorem trimChars_eq_self_ends (l : List Char) (h : trimChars l = l) :
    (∀ c, l.head? = some c → isJsWs c = false) ∧
    (∀ c, l.getLast? = some c → isJsWs c = false) := by
  have hlen : (trimChars l).length = l.length := by rw [h]
  have h1le : (l.dropWhile isJsWs).length ≤ l.length := length_dropWhile_le _ _
  have h2le : ((l.dropWhile isJsWs).reverse.dropWhile isJsWs).length
      ≤ (l.dropWhile isJsWs).length := by
    have := length_dropWhile_le isJsWs (l.dropWhile isJsWs).reverse
    simpa using this
  have htrim : (trimChars l).length
      = ((l.dropWhile isJsWs).reverse.dropWhile isJsWs).length := by
    unfold trimChars
    simp
  have e1 : (l.dropWhile isJsWs).length = l.length := by omega
  have hd : l.dropWhile isJsWs = l := dropWhile_length_eq _ _ e1
  have e2 : (l.reverse.dropWhile isJsWs).length = l.reverse.length := by
    rw [hd] at htrim
    simp only [List.length_reverse]
    omega
  have hrev : l.reverse.dropWhile isJsWs = l.reverse :=
    dropWhile_length_eq _ _ e2
  constructor
  · intro c hc
    cases l with
    | nil => simp at hc
    | cons a rest =>
      have ha : a = c := by simpa using hc
      subst ha
      by_contra hw
      simp only [Bool.not_eq_false] at hw
      rw [List.dropWhile_cons, if_pos hw] at hd
      have := length_dropWhile_le isJsWs rest
      have := congrArg List.length hd
      simp at this
      omega
  · intro c hc
    have hc' : l.reverse.head? = some c := by
      rw [List.head?_reverse]
      exact hc
    cases hr : l.reverse with
    | nil => rw [hr] at hc'; simp at hc'
    | cons a rest =>
      rw [hr] at hc' hrev
      have ha : a = c := by simpa using hc'
      subst ha
      by_contra hw
      simp only [Bool.not_eq_false] at hw
      rw [List.dropWhile_cons, if_pos hw] at hrev
      have := length_dropWhile_le isJsWs rest
      have := congrArg List.length hrev
      simp at this
      omega

theorem splitGo_ne_nil (p : Char → Bool) :
    ∀ (l : List Char) (mode : Bool) (acc : List Char),
      (∀ c, l.getLast? = some c → p c = false) →
      (mode = false → acc ≠ []) →
      (mode = true → l ≠ []) →
      ∀ f ∈ splitGo p mode l acc, f ≠ [] := by
  intro l
  induction l with
  | nil =>
    intro mode acc hlast hacc hmode f hf
    cases mode with
    | false =>
      simp only [splitGo] at hf
      rcases List.mem_singleton.mp hf with rfl
      simp [hacc rfl]
    | true => exact absurd rfl (hmode rfl)
  | cons c rest ih =>
    intro mode acc hlast hacc hmode f hf
    have hlastR : ∀ c', rest.getLast? = some c' → p c' = false := by
      intro c' hc'
      cases rest with
      | nil => simp at hc'
      | cons b bs =>
        apply hlast
        rw [List.getLast?_cons_cons]
        exact hc'
    have hrne : p c = true → rest ≠ [] := by
      intro hpc hr
      subst hr
      have := hlast c (by simp)
      rw [hpc] at this
      simp at this
    cases mode with
    | false =>
      simp only [splitGo] at hf
      by_cases hc : p c
      · rw [if_pos hc] at hf
        rcases List.mem_cons.mp hf with rfl | hf2
        · simp [hacc rfl]
        · exact ih true [] hlastR (fun h => nomatch h) (fun _ => hrne hc) f hf2
      · rw [if_neg hc] at hf
        exact ih false (c :: acc) hlastR (fun _ => by simp) (fun h => nomatch h) f hf
    | true =>
      simp only [splitGo] at hf
      by_cases hc : p c
      · rw [if_pos hc] at hf
        exact ih true [] hlastR (fun h => nomatch h) (fun _ => hrne hc) f hf
      · rw [if_neg hc] at hf
        exact ih false [c] hlastR (fun _ => by simp) (fun h => nomatch h) f hf

theorem jsSplit_ne_nil (p : Char → Bool) (l : List Char) (hne : l ≠ [])
    (hhead : ∀ c, l.head? = some c → p c = false)
    (hlast : ∀ c, l.getLast? = some c → p c = false) :
    ∀ f ∈ jsSplit p l, f ≠ [] := by
  cases l with
  | nil => exact absurd rfl hne
  | cons c rest =>
    have hc : p c = false := hhead c rfl
    have hlastR : ∀ c', rest.getLast? = some c' → p c' = false := by
      intro c' hc'
      cases rest with
      | nil => simp at hc'
      | cons b bs =>
        apply hlast
        rw [List.getLast?_cons_cons]
        exact hc'
    intro f hf
    unfold jsSplit at hf
    simp only [splitGo, hc] at hf
    exact splitGo_ne_nil p rest false [c] hlastR (fun _ => by simp)
      (fun h => nomatch h) f hf

theorem trimmed_tokens (l : List Char) (h1 : trimChars l = l) (h2 : l ≠ []) :
    (jsSplit isJsWs l).filter (fun t => !t.isEmpty) = jsSplit isJsWs l := by
  apply List.filter_eq_self.mpr
  intro f hf
  have hne := jsSplit_ne_nil isJsWs l h2 (trimChars_eq_self_ends l h1).1
    (trimChars_eq_self_ends l h1).2 f hf
  cases f with
  | nil => exact absurd rfl hne
  | cons a as => rfl

/- -------------------------- C5: analyzeSentence ------------------------- -/

set_option maxRecDepth 16384 in
/-- C5: on every trimmed non-empty sentence string the risk scorer computes
score = wordCount * 0.5 + (syllableTotal / max(wordCount, 1)) * 10 +
punctuationCount * 2 over the whitespace-delimited tokens and the
punctuation characters comma, semicolon, colon, em dash and en dash, and
classifies score ≥ 35 as danger, score ≥ 25 as warn and anything lower as
none; on the two-sentence scenario text the first sentence scores none
(hence none-or-warn) and the second scores danger. -/
theorem analyzeSentence_spec :
    (∀ l : List Char, trimChars l = l → l ≠ [] →
      analyzeSentence l =
        (let toks := (jsSplit isJsWs l).filter fun t => !t.isEmpty
         let wordCount := toks.length
         let syllableTotal := (toks.map countSyllablesL).sum
         let score : ℚ := (wordCount : ℚ) * (1 / 2) +
           (syllableTotal : ℚ) / ((max wordCount 1 : ℕ) : ℚ) * 10 +
           (l.countP isSentencePunct : ℚ) * 2
         if 35 ≤ score then some Level.danger
         else if 25 ≤ score then some Level.warn
         else none)) ∧
    ((jsSentenceParts ("This is a short sentence. But here is a much longer and more syntactically complicated sentence, containing several clauses, semicolons; and extra punctuation: to push its score past the danger threshold.".data)).map
        fun part => analyzeSentence (trimChars part))
      = [none, some Level.danger] := by
  constructor
  · intro l h1 h2
    rw [trimmed_tokens l h1 h2]
    unfold analyzeSentence sentenceScore
    rw [h1]
  · have hp : jsSentenceParts ("This is a short sentence. But here is a much longer and more syntactically complicated sentence, containing several clauses, semicolons; and extra punctuation: to push its score past the danger threshold.".data)
        = ["This is a short sentence.".data,
           " But here is a much longer and more syntactically complicated sentence, containing several clauses, semicolons; and extra punctuation: to push its score past the danger threshold.".data] := by
      decide
    rw [hp]
    simp only [List.map_cons, List.map_nil, analyzeSentence_eval]
    decide

/-- C5 (witness): the scoring clause applied to the concrete trimmed
sentence "Go on.". -/
theorem analyzeSentence_spec_witness :
    (trimChars ("Go on.".data) = "Go on.".data ∧ "Go on.".data ≠ []) ∧
      analyzeSentence ("Go on.".data) =
        (let toks := (jsSplit isJsWs ("Go on.".data)).filter fun t => !t.isEmpty
         let wordCount := toks.length
         let syllableTotal := (toks.map countSyllablesL).sum
         let score : ℚ := (wordCount : ℚ) * (1 / 2) +
           (syllableTotal : ℚ) / ((max wordCount 1 : ℕ) : ℚ) * 10 +
           (("Go on.".data).countP isSentencePunct : ℚ) * 2
         if 35 ≤ score then some Level.danger
         else if 25 ≤ score then some Level.warn
         else none) :=
  ⟨⟨by decide, by decide⟩, analyzeSentence_spec.1 _ (by decide) (by decide)⟩

/- ----------------------- concrete heatmap evaluation -------------------- -/

theorem heatLoop_cons (pos : ℕ) (part : List Char) (rest : List (List Char))
    (offset : ℕ) :
    heatLoop pos (part :: rest) offset =
      if (trimChars part).isEmpty then heatLoop pos rest (offset + part.length)
      else
        match analyzeSentence (trimChars part) with
        | none => heatLoop pos rest (offset + part.length)
        | some level =>
          { hFrom := pos + 1 + offset,
            hTo := pos + 1 + offset + (trimChars part).length,
            level := level } :: heatLoop pos rest (offset + part.length) := rfl

theorem blockHeat_sample_eval :
    blockHeat 0 ("a, a, a, a, a, a, a, a, a, a, a, a, a, a, a, a, a, a.".data)
      = [{ hFrom := 1, hTo := 54, level := Level.danger }] := by
  have h1 : analyzeSentence
      (trimChars ("a, a, a, a, a, a, a, a, a, a, a, a, a, a, a, a, a, a.".data))
      = some Level.danger := by
    rw [analyzeSentence_eval]
    decide
  have h2 : jsSentenceParts
      ("a, a, a, a, a, a, a, a, a, a, a, a, a, a, a, a, a, a.".data)
      = ["a, a, a, a, a, a, a, a, a, a, a, a, a, a, a, a, a, a.".data] := by
    decide
  rw [blockHeat, h2, heatLoop_cons, if_neg (by decide), h1]
  decide

/-- C10 (witness): the block-range theorem applied to the span produced
from the sample block at position 0. -/
theorem blockHeat_span_in_block_witness :
    ({ hFrom := 1, hTo := 54, level := Level.danger } : SentenceHeat)
        ∈ blockHeat 0
          ("a, a, a, a, a, a, a, a, a, a, a, a, a, a, a, a, a, a.".data) ∧
      0 + 1 ≤ (1 : ℕ) ∧ (54 : ℕ) ≤ 0 + 1 +
        ("a, a, a, a, a, a, a, a, a, a, a, a, a, a, a, a, a, a.".data).length := by
  have hmem : ({ hFrom := 1, hTo := 54, level := Level.danger } : SentenceHeat)
      ∈ blockHeat 0
        ("a, a, a, a, a, a, a, a, a, a, a, a, a, a, a, a, a, a.".data) := by
    rw [blockHeat_sample_eval]
    simp
  exact ⟨hmem, blockHeat_span_in_block 0 _ _ hmem⟩

/-- C1 (witness): the heatmap well-formedness theorem applied to the
concrete one-block document built from the sample block. -/
theorem heatmap_spans_wellformed_witness :
    List.Pairwise (fun b b' => b.pos + 1 + b.text.length ≤ b'.pos + 1)
      [({ pos := 0, isTextblock := true,
          text := "a, a, a, a, a, a, a, a, a, a, a, a, a, a, a, a, a, a.".data }
        : PMBlock)] ∧
    ((∀ s ∈ getSentenceHeatmap
        [({ pos := 0, isTextblock := true,
            text := "a, a, a, a, a, a, a, a, a, a, a, a, a, a, a, a, a, a.".data }
          : PMBlock)], s.hFrom < s.hTo) ∧
      List.Pairwise (fun a b => a.hTo ≤ b.hFrom)
        (getSentenceHeatmap
          [({ pos := 0, isTextblock := true,
              text := "a, a, a, a, a, a, a, a, a, a, a, a, a, a, a, a, a, a.".data }
            : PMBlock)]) ∧
      List.Pairwise (fun a b => a.hFrom ≤ b.hFrom)
        (getSentenceHeatmap
          [({ pos := 0, isTextblock := true,
              text := "a, a, a, a, a, a, a, a, a, a, a, a, a, a, a, a, a, a.".data }
            : PMBlock)])) :=
  ⟨by simp, heatmap_spans_wellformed _ (by simp)⟩

/- --------------------- insertion and sorting lemmas --------------------- -/

theorem insertP_perm {α : Type} (f : α → Bool) (p : α) (l : List α) :
    List.Perm (insertP f p l) (p :: l) := by
  induction l with
  | nil => exact List.Perm.refl _
  | cons q r ih =>
    by_cases h : f q
    · rw [insertP, if_pos h]
      exact (List.Perm.cons q ih).trans (List.Perm.swap p q r)
    · rw [insertP, if_neg h]

theorem sortFold_perm {α : Type} (g : α → α → Bool) (l : List α) :
    ∀ acc : List α,
      List.Perm (l.foldl (fun acc p => insertP (g p) p acc) acc) (acc ++ l) := by
  induction l with
  | nil => intro acc; simp
  | cons p r ih =>
    intro acc
    simp only [List.foldl_cons]
    refine (ih _).trans ?_
    refine (List.Perm.append_right r (insertP_perm _ p acc)).trans ?_
    rw [List.cons_append]
    exact List.perm_middle.symm

theorem sortNumAsc_perm (l : List (String × ℕ)) : List.Perm (sortNumAsc l) l := by
  have := sortFold_perm
    (fun p q => decide (digitsVal q.1.data ≤ digitsVal p.1.data)) l []
  simpa [sortNumAsc] using this

theorem sortByCountDesc_perm (l : List (String × ℕ)) :
    List.Perm (sortByCountDesc l) l := by
  have := sortFold_perm (fun p q => decide (p.2 ≤ q.2)) l []
  simpa [sortByCountDesc] using this

theorem jsEntries_perm (m : List (String × ℕ)) : List.Perm (jsEntries m) m := by
  unfold jsEntries
  exact (List.Perm.append_right _
    (sortNumAsc_perm (m.filter fun p => isArrayIdx p.1))).trans
    (List.filter_append_perm _ m)

theorem insertP_sorted_desc (p : String × ℕ) (l : List (String × ℕ))
    (hl : List.Pairwise (fun a b => b.2 ≤ a.2) l) :
    List.Pairwise (fun a b => b.2 ≤ a.2)
      (insertP (fun q => decide (p.2 ≤ q.2)) p l) := by
  induction l with
  | nil => simp [insertP]
  | cons q r ih =>
    rcases List.pairwise_cons.mp hl with ⟨hq, hr⟩
    by_cases h : p.2 ≤ q.2
    · rw [insertP, if_pos (by simpa using h)]
      refine List.pairwise_cons.mpr ⟨?_, ih hr⟩
      intro b hb
      rcases List.mem_cons.mp ((insertP_perm _ p r).mem_iff.mp hb) with rfl | hbr
      · exact h
      · exact hq b hbr
    · rw [insertP, if_neg (by simpa using h)]
      refine List.pairwise_cons.mpr ⟨?_, hl⟩
      intro b hb
      rcases List.mem_cons.mp hb with rfl | hbr
      · omega
      · have := hq b hbr
        omega

theorem sortByCountDesc_sorted (l : List (String × ℕ)) :
    List.Pairwise (fun a b => b.2 ≤ a.2) (sortByCountDesc l) := by
  unfold sortByCountDesc
  have h : ∀ (l acc : List (String × ℕ)),
      List.Pairwise (fun a b => b.2 ≤ a.2) acc →
      List.Pairwise (fun a b => b.2 ≤ a.2)
        (l.foldl (fun acc p => insertP (fun q => decide (p.2 ≤ q.2)) p acc) acc) := by
    intro l
    induction l with
    | nil => intro acc h; simpa
    | cons p r ih =>
      intro acc hacc
      simp only [List.foldl_cons]
      exact ih _ (insertP_sorted_desc p acc hacc)
  exact h l [] (by simp)

theorem insertP_filter_desc (p : String × ℕ) (l : List (String × ℕ))
    (hl : List.Pairwise (fun a b => b.2 ≤ a.2) l) (c : ℕ) :
    (insertP (fun q => decide (p.2 ≤ q.2)) p l).filter (fun x => x.2 == c)
      = if p.2 = c then l.filter (fun x => x.2 == c) ++ [p]
        else l.filter (fun x => x.2 == c) := by
  induction l with
  | nil =>
    by_cases hc : p.2 = c <;> simp [insertP, List.filter_cons, hc]
  | cons q r ih =>
    rcases List.pairwise_cons.mp hl with ⟨hq, hr⟩
    by_cases h : p.2 ≤ q.2
    · rw [insertP, if_pos (by simpa using h), List.filter_cons, ih hr]
      by_cases hc : p.2 = c <;> by_cases hqc : q.2 = c <;>
        simp [hc, hqc, List.filter_cons]
    · rw [insertP, if_neg (by simpa using h)]
      have hqlt : q.2 < p.2 := by omega
      by_cases hc : p.2 = c
      · have hnone : (q :: r).filter (fun x => x.2 == c) = [] := by
          apply List.filter_eq_nil.mpr
          intro a ha
          rcases List.mem_cons.mp ha with rfl | har
          · simp
            omega
          · have := hq a har
            simp
            omega
        rw [List.filter_cons, if_pos (by simpa using hc), if_pos hc, hnone]
        rfl
      · rw [List.filter_cons, if_neg (by simpa using hc), if_neg hc]

theorem sortByCountDesc_filter (l : List (String × ℕ)) (c : ℕ) :
    (sortByCountDesc l).filter (fun x => x.2 == c)
      = l.filter (fun x => x.2 == c) := by
  unfold sortByCountDesc
  have h : ∀ (l acc : List (String × ℕ)),
      List.Pairwise (fun a b => b.2 ≤ a.2) acc →
      (l.foldl (fun acc p => insertP (fun q => decide (p.2 ≤ q.2)) p acc)
          acc).filter (fun x => x.2 == c)
        = acc.filter (fun x => x.2 == c) ++ l.filter (fun x => x.2 == c) := by
    intro l
    induction l with
    | nil => intro acc _; simp
    | cons p r ih =>
      intro acc hacc
      simp only [List.foldl_cons]
      rw [ih _ (insertP_sorted_desc p acc hacc), insertP_filter_desc p acc hacc c,
        List.filter_cons]
      by_cases hc : p.2 = c
      · rw [if_pos hc, if_pos (by simpa using hc)]
        simp
      · rw [if_neg hc, if_neg (by simpa using hc)]
  rw [h l [] (by simp)]
  simp

theorem jsEntries_nonidx_filter (m : List (String × ℕ)) :
    (jsEntries m).filter (fun p => !isArrayIdx p.1)
      = m.filter (fun p => !isArrayIdx p.1) := by
  unfold jsEntries
  rw [List.filter_append]
  have h1 : (sortNumAsc (m.filter fun p => isArrayIdx p.1)).filter
      (fun p => !isArrayIdx p.1) = [] := by
    apply List.filter_eq_nil.mpr
    intro a ha
    have hmem : a ∈ m.filter (fun p => isArrayIdx p.1) :=
      (sortNumAsc_perm _).mem_iff.mp ha
    have := (List.mem_filter.mp hmem).2
    simp [this]
  rw [h1, List.nil_append]
  apply List.filter_eq_self.mpr
  intro a ha
  exact (List.mem_filter.mp ha).2

/- ------------------------ frequency map lemmas -------------------------- -/

theorem bumpKey_sum (m : List (String × ℕ)) (k : String) :
    ((bumpKey m k).map Prod.snd).sum = (m.map Prod.snd).sum + 1 := by
  induction m with
  | nil => simp [bumpKey]
  | cons q r ih =>
    obtain ⟨k', c⟩ := q
    by_cases h : k' = k
    · rw [bumpKey, if_pos h]
      simp
      omega
    · rw [bumpKey, if_neg h]
      simp [ih]
      omega

theorem buildFreq_sum_le (ws : List (List Char)) :
    ((buildFreq ws).map Prod.snd).sum ≤ ws.length := by
  have h : ∀ (ws : List (List Char)) (acc : List (String × ℕ)),
      (((ws.foldl
          (fun m w =>
            if normalizeKey w = "" || STOP_WORDS.contains (normalizeKey w) then m
            else bumpKey m (normalizeKey w))
          acc)).map Prod.snd).sum ≤ ((acc.map Prod.snd).sum) + ws.length := by
    intro ws
    induction ws with
    | nil => intro acc; simp
    | cons w r ih =>
      intro acc
      simp only [List.foldl_cons, List.length_cons]
      by_cases hk : (normalizeKey w = "" || STOP_WORDS.contains (normalizeKey w)) = true
      · rw [if_pos hk]
        have := ih acc
        omega
      · rw [if_neg hk]
        have := ih (bumpKey acc (normalizeKey w))
        rw [bumpKey_sum] at this
        omega
  have := h ws []
  simpa [buildFreq] using this

theorem bumpKey_keys {P : String → Prop} (m : List (String × ℕ)) (k : String)
    (hm : ∀ p ∈ m, P p.1) (hk : P k) : ∀ p ∈ bumpKey m k, P p.1 := by
  induction m with
  | nil =>
    intro p hp
    simp only [bumpKey, List.mem_singleton] at hp
    subst hp
    exact hk
  | cons q r ih =>
    obtain ⟨k', c⟩ := q
    intro p hp
    by_cases h : k' = k
    · rw [bumpKey, if_pos h] at hp
      rcases List.mem_cons.mp hp with rfl | hr
      · exact hm (k', c) (List.mem_cons_self _ _)
      · exact hm p (List.mem_cons_of_mem _ hr)
    · rw [bumpKey, if_neg h] at hp
      rcases List.mem_cons.mp hp with rfl | hr
      · exact hm (k', c) (List.mem_cons_self _ _)
      · exact ih (fun p hp => hm p (List.mem_cons_of_mem _ hp)) p hr

theorem buildFreq_keys (ws : List (List Char)) :
    ∀ p ∈ buildFreq ws, ¬ p.1 ∈ STOP_WORDS ∧ p.1 ≠ "" := by
  have h : ∀ (ws : List (List Char)) (acc : List (String × ℕ)),
      (∀ p ∈ acc, ¬ p.1 ∈ STOP_WORDS ∧ p.1 ≠ "") →
      ∀ p ∈ ws.foldl
          (fun m w =>
            if normalizeKey w = "" || STOP_WORDS.contains (normalizeKey w) then m
            else bumpKey m (normalizeKey w))
          acc, ¬ p.1 ∈ STOP_WORDS ∧ p.1 ≠ "" := by
    intro ws
    induction ws with
    | nil => intro acc hacc; simpa using hacc
    | cons w r ih =>
      intro acc hacc
      simp only [List.foldl_cons]
      by_cases hk : (normalizeKey w = "" || STOP_WORDS.contains (normalizeKey w)) = true
      · rw [if_pos hk]
        exact ih acc hacc
      · rw [if_neg hk]
        refine ih _ (@bumpKey_keys (fun k => ¬ k ∈ STOP_WORDS ∧ k ≠ "")
          acc (normalizeKey w) hacc ?_)
        simp only [Bool.or_eq_true, decide_eq_true_eq, not_or] at hk
        refine ⟨?_, hk.1⟩
        intro hmem
        exact hk.2 (List.elem_iff.mpr hmem)
  exact h ws [] (by simp)

theorem density_sum_eq (l : List (String × ℕ)) (W : ℕ) :
    (l.map (fun p => (p.2 : ℚ) / (W : ℚ) * 100)).sum
      = (((l.map Prod.snd).sum : ℕ) : ℚ) / (W : ℚ) * 100 := by
  induction l with
  | nil => simp
  | cons p r ih =>
    simp only [List.map_cons, List.sum_cons, ih]
    push_cast
    ring

/- ----------------------------- C9: keywords ----------------------------- -/

theorem keywordPairs_mem_freq (ws : List (List Char)) (p : String × ℕ)
    (hp : p ∈ keywordPairs ws) : p ∈ buildFreq ws := by
  have h1 : p ∈ sortByCountDesc (jsEntries (buildFreq ws)) :=
    List.mem_of_mem_take hp
  have h2 : p ∈ jsEntries (buildFreq ws) :=
    (sortByCountDesc_perm _).mem_iff.mp h1
  exact (jsEntries_perm _).mem_iff.mp h2

/-- C9: the keyword list of computeStatistics never contains a stop word,
and the exact densities of its entries (frequency / word count * 100 as
rationals) sum to at most 100. -/
theorem keywords_stopfree_density (activeText : List Char) (doc : StatsDoc)
    (selFrom selTo : ℕ) :
    (computeStatistics activeText doc selFrom selTo).keywords
      = (keywordPairs (statsWords activeText)).map (fun p =>
          { word := p.1,
            density := toFixed1
              ((p.2 : ℚ) / (((statsWords activeText).length : ℕ) : ℚ) * 100) }) ∧
    (∀ p ∈ keywordPairs (statsWords activeText), p.1 ∉ STOP_WORDS) ∧
    (∀ e ∈ (computeStatistics activeText doc selFrom selTo).keywords,
      e.word ∉ STOP_WORDS) ∧
    ((keywordPairs (statsWords activeText)).map
        (fun p => (p.2 : ℚ) / (((statsWords activeText).length : ℕ) : ℚ) * 100)).sum
      ≤ 100 := by
  have hconn : (computeStatistics activeText doc selFrom selTo).keywords
      = (keywordPairs (statsWords activeText)).map (fun p =>
          { word := p.1,
            density := toFixed1
              ((p.2 : ℚ) / (((statsWords activeText).length : ℕ) : ℚ) * 100) }) := rfl
  have hstop : ∀ p ∈ keywordPairs (statsWords activeText), p.1 ∉ STOP_WORDS := by
    intro p hp
    exact (buildFreq_keys (statsWords activeText) p
      (keywordPairs_mem_freq _ p hp)).1
  refine ⟨hconn, hstop, ?_, ?_⟩
  · intro e he
    rw [hconn] at he
    obtain ⟨p, hp, rfl⟩ := List.mem_map.mp he
    exact hstop p hp
  · rw [density_sum_eq]
    have hsum : (((keywordPairs (statsWords activeText)).map Prod.snd).sum : ℕ)
        ≤ (statsWords activeText).length := by
      refine le_trans ?_ (buildFreq_sum_le (statsWords activeText))
      unfold keywordPairs
      rw [List.map_take]
      refine le_trans (sum_take_le _ 10) ?_
      have h1 := ((sortByCountDesc_perm
        (jsEntries (buildFreq (statsWords activeText)))).map Prod.snd).sum_eq
      have h2 := ((jsEntries_perm (buildFreq (statsWords activeText))).map
        Prod.snd).sum_eq
      rw [h1, h2]
    rcases Nat.eq_zero_or_pos (statsWords activeText).length with hW | hW
    · rw [hW]
      norm_num
    · have hWq : (0 : ℚ) < (((statsWords activeText).length : ℕ) : ℚ) := by
        exact_mod_cast hW
      have hSq : ((((keywordPairs (statsWords activeText)).map Prod.snd).sum : ℕ) : ℚ)
          ≤ (((statsWords activeText).length : ℕ) : ℚ) := by
        exact_mod_cast hsum
      have h1 : ((((keywordPairs (statsWords activeText)).map Prod.snd).sum : ℕ) : ℚ)
          / (((statsWords activeText).length : ℕ) : ℚ) ≤ 1 :=
        (div_le_one hWq).mpr hSq
      nlinarith

/-- C9 (witness): the stop-word clause applied to the concrete entry
("hello", 2) of the keyword pairs of "hello hello world". -/
theorem keywords_stopfree_density_witness :
    ("hello", 2) ∈ keywordPairs (statsWords ("hello hello world".data)) ∧
      ("hello" : String) ∉ STOP_WORDS :=
  ⟨by decide,
    (keywords_stopfree_density ("hello hello world".data)
      { childCount := 0, blocksBetween := fun _ _ => 0 } 0 0).2.1
      ("hello", 2) (by decide)⟩

/- ----------------------------- C2: keyword order ------------------------ -/

/-- C2 (amended): the keyword list has at most 10 entries and its
underlying word/count pairs are in descending count order; the sort is
stable, so equal-count entries keep the enumeration order of the frequency
map (for every count value the equal-count entries of the sorted list are
exactly those of the enumeration, in the same order); that enumeration
order is first-seen order for every word that is not an array-index
numeral string, while array-index numerals are enumerated first in
ascending numeric order. -/
theorem keywords_top10_order (activeText : List Char) (doc : StatsDoc)
    (selFrom selTo : ℕ) :
    (computeStatistics activeText doc selFrom selTo).keywords.length ≤ 10 ∧
    List.Pairwise (fun p q => q.2 ≤ p.2) (keywordPairs (statsWords activeText)) ∧
    (∀ c : ℕ,
      (sortByCountDesc (jsEntries (buildFreq (statsWords activeText)))).filter
          (fun x => x.2 == c)
        = (jsEntries (buildFreq (statsWords activeText))).filter
            (fun x => x.2 == c)) ∧
    (jsEntries (buildFreq (statsWords activeText))).filter
        (fun p => !isArrayIdx p.1)
      = (buildFreq (statsWords activeText)).filter (fun p => !isArrayIdx p.1) ∧
    (computeStatistics activeText doc selFrom selTo).keywords
      = (keywordPairs (statsWords activeText)).map (fun p =>
          { word := p.1,
            density := toFixed1
              ((p.2 : ℚ) / (((statsWords activeText).length : ℕ) : ℚ) * 100) }) := by
  refine ⟨?_, ?_, fun c => sortByCountDesc_filter _ c, jsEntries_nonidx_filter _, rfl⟩
  · show ((keywordPairs (statsWords activeText)).map _).length ≤ 10
    rw [List.length_map]
    exact List.length_take_le 10 _
  · exact List.Pairwise.sublist (List.take_sublist _ _)
      (sortByCountDesc_sorted (jsEntries (buildFreq (statsWords activeText))))

/-- C2 (counterexample): on the input text "10 9" the two keywords tie at
frequency 1 and "10" is seen first, yet the keyword list orders "9" before
"10", because both normalised words are array-index keys that
Object.entries enumerates in ascending numeric order before the stable
sort runs. -/
theorem keywords_tie_order_cex :
    ((computeStatistics ("10 9".data)
        { childCount := 0, blocksBetween := fun _ _ => 0 } 0 0).keywords).map
        KeywordEntry.word = ["9", "10"] ∧
    (buildFreq (statsWords ("10 9".data))).map Prod.fst = ["10", "9"] ∧
    (buildFreq (statsWords ("10 9".data))).map Prod.snd = [1, 1] := by
  refine ⟨?_, by decide, by decide⟩
  decide

/- ------------------------- C3: empty active text ------------------------ -/

/-- C3 (amended): when the trimmed active text is empty, computeStatistics
returns zero words, characters, characters with formatting and sentences,
the unavailable reading-grade sentinel and an empty keyword list; the
paragraph count is computed from the document and selection alone
(childCount when the selection is empty) and is not forced to zero. -/
theorem stats_empty_text (activeText : List Char) (doc : StatsDoc)
    (selFrom selTo : ℕ) (h : trimChars activeText = []) :
    (computeStatistics activeText doc selFrom selTo).words = 0 ∧
    (computeStatistics activeText doc selFrom selTo).characters = 0 ∧
    (computeStatistics activeText doc selFrom selTo).charactersWithFormatting = 0 ∧
    (computeStatistics activeText doc selFrom selTo).sentences = 0 ∧
    (computeStatistics activeText doc selFrom selTo).readingGrade = "—" ∧
    (computeStatistics activeText doc selFrom selTo).keywords = [] ∧
    (selFrom = selTo →
      (computeStatistics activeText doc selFrom selTo).paragraphs
        = doc.childCount) := by
  have hw : statsWords activeText = [] := by
    simp [statsWords, h]
  have hs : statsSentences activeText = [] := by
    simp [statsSentences, h]
  refine ⟨?_, ?_, ?_, ?_, ?_, ?_, ?_⟩
  · simp [computeStatistics, hw]
  · simp [computeStatistics, h]
  · simp [computeStatistics, h]
  · simp [computeStatistics, hs]
  · simp [computeStatistics, hw, hs]
  · simp [computeStatistics, hw, keywordPairs, buildFreq, jsEntries, sortNumAsc,
      sortByCountDesc]
  · intro hsel
    simp [computeStatistics, hsel]

/-- C3 (counterexample): for the empty active text over a document with one
(empty) top-level block and an empty selection, the paragraph count is 1,
not 0; an empty editor document has exactly one empty paragraph child, so
the all-counts-zero claim fails for the paragraphs field. -/
theorem stats_empty_paragraphs_cex :
    (computeStatistics []
        { childCount := 1, blocksBetween := fun _ _ => 0 } 0 0).paragraphs = 1 ∧
    ¬ (computeStatistics []
        { childCount := 1, blocksBetween := fun _ _ => 0 } 0 0).paragraphs = 0 := by
  constructor <;> decide

/-- C3 (witness): the amended empty-text theorem applied to the empty
active text over a document with no top-level children. -/
theorem stats_empty_text_witness :
    trimChars [] = [] ∧
    ((computeStatistics [] { childCount := 0, blocksBetween := fun _ _ => 0 }
        0 0).words = 0 ∧
      (computeStatistics [] { childCount := 0, blocksBetween := fun _ _ => 0 }
        0 0).characters = 0 ∧
      (computeStatistics [] { childCount := 0, blocksBetween := fun _ _ => 0 }
        0 0).charactersWithFormatting = 0 ∧
      (computeStatistics [] { childCount := 0, blocksBetween := fun _ _ => 0 }
        0 0).sentences = 0 ∧
      (computeStatistics [] { childCount := 0, blocksBetween := fun _ _ => 0 }
        0 0).readingGrade = "—" ∧
      (computeStatistics [] { childCount := 0, blocksBetween := fun _ _ => 0 }
        0 0).keywords = [] ∧
      (0 = 0 →
        (computeStatistics [] { childCount := 0, blocksBetween := fun _ _ => 0 }
          0 0).paragraphs
          = ({ childCount := 0, blocksBetween := fun _ _ => 0 } : StatsDoc).childCount)) :=
  ⟨by decide, stats_empty_text [] _ 0 0 (by decide)⟩
